import Mathlib

/-!
Verification of the FileTag tag store (lib/index.js) against its specification.

The store is a JS object mapping absolute file paths to records
`{ tags, created, modified }`, persisted as pretty-printed JSON.
We embed it as an insertion-ordered association list (JS objects preserve
insertion order for non-integer string keys such as absolute paths), and
JS `Set` operations as first-occurrence deduplicating list operations
(JS sets iterate in insertion order).

External effects are made explicit:
* `path.resolve` is an arbitrary function parameter `resolve`;
* `fs.access` success is a snapshot predicate `fsExists`;
* `new Date().toISOString()` is a parameter `now`;
* filesystem writes performed by an operation are returned as a trace of
  `FsOp` values (`fs.writeFile` / `fs.rename`);
* the combined outcome of `fs.readFile` + `JSON.parse` in `init` is an
  input `ReadOutcome` (`missing`: readFile throws; `corrupt`: readFile
  succeeds but JSON.parse throws; `ok db`: both succeed).
-/

/-- One record of the store: `{ tags: [...], created: ..., modified: ... }`. -/
structure TagRecord where
  tags : List String
  created : String
  modified : String
deriving DecidableEq, Repr

/-- The in-memory store `this.db`: a JS object as an insertion-ordered
association list from absolute path to record. -/
abbrev DB := List (String × TagRecord)

/-- JS property read `db[p]`: first (unique) binding of key `p`. -/
def dbFind (db : DB) (p : String) : Option TagRecord :=
  match db with
  | [] => none
  | e :: rest => if e.1 = p then some e.2 else dbFind rest p

/-- JS property write `db[p] = r`: replace in place if the key exists,
otherwise append (JS objects keep insertion order). -/
def dbSet (db : DB) (p : String) (r : TagRecord) : DB :=
  match db with
  | [] => [(p, r)]
  | e :: rest => if e.1 = p then (p, r) :: rest else e :: dbSet rest p r

/-- Model of `l.forEach(x => set.add(x))` on a JS `Set` held as its insertion-order
element list `s`: add each element of `l` at the end unless present. -/
def setAddAll (s : List String) : List String → List String
  | [] => s
  | t :: ts => setAddAll (if t ∈ s then s else s ++ [t]) ts

/-- Model of `Array.from(new Set(l))`: first-occurrence deduplication of `l`. -/
def setOfList (l : List String) : List String :=
  setAddAll [] l

/-- A filesystem operation issued by the store. -/
inductive FsOp where
  | write (path content : String)
  | rename (src dst : String)
deriving DecidableEq, Repr

/-- Lowercase hex digit, as produced by JSON escape sequences. -/
def hexDigitChar (n : Nat) : Char :=
  if n < 10 then Char.ofNat (48 + n) else Char.ofNat (97 + (n - 10))

/-- Escaping of one character inside a JSON string literal
(`JSON.stringify` string escaping). -/
def jsonEscapeChar (c : Char) : String :=
  if c = '"' then "\\\""
  else if c = '\\' then "\\\\"
  else if c.toNat = 8 then "\\b"
  else if c.toNat = 9 then "\\t"
  else if c.toNat = 10 then "\\n"
  else if c.toNat = 12 then "\\f"
  else if c.toNat = 13 then "\\r"
  else if c.toNat < 32 then
    "\\u00" ++ String.mk [hexDigitChar (c.toNat / 16), hexDigitChar (c.toNat % 16)]
  else String.mk [c]

/-- A JSON string literal for `s`. -/
def jsonQuote (s : String) : String :=
  "\"" ++ String.join (s.data.map jsonEscapeChar) ++ "\""

/-- The `tags` array at nesting depth 2 of `JSON.stringify(db, null, 2)`. -/
def serializeTags (tags : List String) : String :=
  match tags with
  | [] => "[]"
  | _ => "[\n      " ++ String.intercalate ",\n      " (tags.map jsonQuote) ++ "\n    ]"

/-- One record object at nesting depth 1 of `JSON.stringify(db, null, 2)`. -/
def serializeRecord (r : TagRecord) : String :=
  "\x7b\n    \"tags\": " ++ serializeTags r.tags ++
    ",\n    \"created\": " ++ jsonQuote r.created ++
    ",\n    \"modified\": " ++ jsonQuote r.modified ++ "\n  \x7d"

/-- Model of `JSON.stringify(db, null, 2)`: the full serialized store. -/
def serializeDB (db : DB) : String :=
  match db with
  | [] => "\x7b\x7d"
  | _ => "\x7b\n" ++
      String.intercalate ",\n"
        (db.map (fun e => "  " ++ jsonQuote e.1 ++ ": " ++ serializeRecord e.2)) ++
      "\n\x7d"

/-- Model of `save()`: `await fs.writeFile(this.dbPath, JSON.stringify(this.db, null, 2))`.
Returns the trace of filesystem operations it issues: a single direct write
of the full serialization to the backing path. -/
def FileTag.save (dbPath : String) (db : DB) : List FsOp :=
  [FsOp.write dbPath (serializeDB db)]

/-- Error raised by `init` according to the spec. The implementation never
raises it; the `Except` result type makes the spec claim statable. -/
inductive InitError where
  | storeCorrupt
deriving DecidableEq, Repr

/-- Outcome of `fs.readFile(this.dbPath)` followed by `JSON.parse`. -/
inductive ReadOutcome where
  | missing
  | corrupt
  | ok (db : DB)

/-- Model of `init()`: `try { this.db = JSON.parse(await fs.readFile(...)) }
catch { this.db = {}; await this.save() }`. The catch is a catch-all: a
missing file and a corrupt file take the same branch. Returns the loaded
store and the trace of writes. -/
def FileTag.init (dbPath : String) (r : ReadOutcome) : Except InitError (DB × List FsOp) :=
  match r with
  | ReadOutcome.ok db => Except.ok (db, [])
  | ReadOutcome.missing => Except.ok ([], FileTag.save dbPath [])
  | ReadOutcome.corrupt => Except.ok ([], FileTag.save dbPath [])

/-- Error raised by `addTags` for a missing target file
(`throw new Error('File not found: ...')`). -/
inductive TagError where
  | fileNotFound (path : String)
deriving DecidableEq, Repr

/-- Model of `addTags(filePath, tags)` on a loaded store `db`: resolve the path,
check existence (throwing before any mutation if absent), create the
record if absent with `created = modified = now`, union the tags into a
`Set` of the existing tags, set `modified = now`, save, and return the
resulting tag list. Result: (returned value or error, new store, writes). -/
def FileTag.addTags (resolve : String → String) (fsExists : String → Bool)
    (now dbPath : String) (db : DB) (filePath : String) (tags : List String) :
    Except TagError (List String) × DB × List FsOp :=
  let absolutePath := resolve filePath
  if fsExists absolutePath then
    let oldRec :=
      match dbFind db absolutePath with
      | some r => r
      | none => ⟨[], now, now⟩
    let newTags := setAddAll (setOfList oldRec.tags) tags
    let db2 := dbSet db absolutePath ⟨newTags, oldRec.created, now⟩
    (Except.ok newTags, db2, FileTag.save dbPath db2)
  else
    (Except.error (TagError.fileNotFound absolutePath), db, [])

/-- Model of `removeTags(filePath, tags)` on a loaded store `db`: resolve the path;
if untracked return `[]` without touching anything; otherwise filter the
removed tags out, set `modified = now`, save, and return the remaining
tags. Result: (returned tag list, new store, writes). -/
def FileTag.removeTags (resolve : String → String) (now dbPath : String)
    (db : DB) (filePath : String) (tags : List String) :
    List String × DB × List FsOp :=
  let absolutePath := resolve filePath
  match dbFind db absolutePath with
  | none => ([], db, [])
  | some r =>
    let newTags := r.tags.filter (fun t => decide (t ∉ tags))
    let db2 := dbSet db absolutePath ⟨newTags, r.created, now⟩
    (newTags, db2, FileTag.save dbPath db2)

/-- Model of `getTags(filePath)` on a loaded store: `db[resolve(filePath)]?.tags || []`. -/
def FileTag.getTags (resolve : String → String) (db : DB) (filePath : String) :
    List String :=
  match dbFind db (resolve filePath) with
  | some r => r.tags
  | none => []

/-- Model of `findByTags(tags, matchAll)` on a loaded store: iterate the entries in
order; with `matchAll` keep paths whose tag set contains every query tag,
otherwise keep paths whose tag set contains at least one query tag. -/
def FileTag.findByTags (db : DB) (tags : List String) (matchAll : Bool) :
    List String :=
  (db.filter (fun e =>
    if matchAll then tags.all (fun t => decide (t ∈ e.2.tags))
    else tags.any (fun t => decide (t ∈ e.2.tags)))).map Prod.fst

/-- Model of `listAllTags()` on a loaded store: collect every record's tags into a
`Set` in iteration order, then sort ascending (`Array.from(set).sort()`). -/
def FileTag.listAllTags (db : DB) : List String :=
  List.insertionSort (· ≤ ·) (db.foldl (fun acc e => setAddAll acc e.2.tags) [])

/-- Model of `clearTags(filePath)` on a loaded store: `delete db[resolve(filePath)]`,
then save. -/
def FileTag.clearTags (resolve : String → String) (dbPath : String)
    (db : DB) (filePath : String) : DB × List FsOp :=
  let absolutePath := resolve filePath
  let db2 := db.filter (fun e => decide (e.1 ≠ absolutePath))
  (db2, FileTag.save dbPath db2)

/-- Tag normalization as the spec words it: trim whitespace, lowercase.
(Stated for comparison with the code; the code never normalizes.) -/
def normalizeTag (s : String) : String :=
  s.trim.toLower

/-- The durability contract as the spec words it: the trace of a save is a
write of the full content to a temporary path distinct from the real one,
followed by a rename of that temporary path over the real path. -/
def atomicSaveTrace (dbPath content : String) (trace : List FsOp) : Prop :=
  ∃ tmpPath, tmpPath ≠ dbPath ∧
    trace = [FsOp.write tmpPath content, FsOp.rename tmpPath dbPath]

theorem mem_setAddAll_iff (a : String) (l s : List String) :
    a ∈ setAddAll s l ↔ a ∈ s ∨ a ∈ l := by
  induction l generalizing s with
  | nil => simp [setAddAll]
  | cons t ts ih =>
    by_cases h : t ∈ s
    · rw [setAddAll, if_pos h, ih]
      simp only [List.mem_cons]
      constructor
      · rintro (hs | hts)
        · exact Or.inl hs
        · exact Or.inr (Or.inr hts)
      · rintro (hs | rfl | hts)
        · exact Or.inl hs
        · exact Or.inl h
        · exact Or.inr hts
    · rw [setAddAll, if_neg h, ih]
      simp only [List.mem_append, List.mem_singleton, List.mem_cons]
      tauto

theorem setAddAll_nodup (l s : List String) (hs : s.Nodup) :
    (setAddAll s l).Nodup := by
  induction l generalizing s with
  | nil => simpa [setAddAll]
  | cons t ts ih =>
    by_cases h : t ∈ s
    · rw [setAddAll, if_pos h]
      exact ih s hs
    · rw [setAddAll, if_neg h]
      exact ih _ (by simp [List.nodup_append, hs, h])

theorem setAddAll_eq_append (l s : List String) (h : (s ++ l).Nodup) :
    setAddAll s l = s ++ l := by
  induction l generalizing s with
  | nil => simp [setAddAll]
  | cons t ts ih =>
    have hrw : s ++ t :: ts = (s ++ [t]) ++ ts := by simp
    have h2 : ((s ++ [t]) ++ ts).Nodup := by rw [← hrw]; exact h
    have ht : t ∉ s := fun hmem =>
      List.disjoint_of_nodup_append h hmem (List.mem_cons_self t ts)
    rw [setAddAll, if_neg ht, ih _ h2, hrw]

theorem setOfList_eq_self (l : List String) (h : l.Nodup) : setOfList l = l :=
  setAddAll_eq_append l [] (by simpa)

theorem setOfList_nodup (l : List String) : (setOfList l).Nodup :=
  setAddAll_nodup l [] List.nodup_nil

theorem setAddAll_singleton_of_mem (s : List String) (t : String) (h : t ∈ s) :
    setAddAll s [t] = s := by
  simp [setAddAll, h]

theorem dbFind_dbSet_self (db : DB) (p : String) (r : TagRecord) :
    dbFind (dbSet db p r) p = some r := by
  induction db with
  | nil => simp [dbSet, dbFind]
  | cons e rest ih =>
    by_cases h : e.1 = p
    · simp [dbSet, h, dbFind]
    · simp [dbSet, h, dbFind, ih]

theorem dbFind_eq_some_iff (db : DB) (p : String) (r : TagRecord)
    (hnd : (db.map Prod.fst).Nodup) :
    dbFind db p = some r ↔ (p, r) ∈ db := by
  induction db with
  | nil => simp [dbFind]
  | cons e rest ih =>
    obtain ⟨q, v⟩ := e
    rw [List.map_cons, List.nodup_cons] at hnd
    by_cases h : q = p
    · subst h
      rw [show dbFind ((q, v) :: rest) q = some v by simp [dbFind]]
      constructor
      · intro hvr
        rw [Option.some_inj] at hvr
        subst hvr
        exact List.mem_cons_self _ _
      · intro hmem
        rcases List.mem_cons.mp hmem with he | hmem2
        · rw [Option.some_inj]
          have := congrArg Prod.snd he
          simpa using this.symm
        · exact absurd (by simpa using List.mem_map_of_mem Prod.fst hmem2)
            (by simpa using hnd.1)
    · rw [show dbFind ((q, v) :: rest) p = dbFind rest p by simp [dbFind, h]]
      rw [ih hnd.2]
      constructor
      · exact fun hm => List.mem_cons_of_mem _ hm
      · intro hmem
        rcases List.mem_cons.mp hmem with he | hmem2
        · exact absurd (by simpa using (congrArg Prod.fst he).symm) h
        · exact hmem2

theorem mem_foldl_setAddAll (db : DB) (a : String) (s : List String) :
    a ∈ db.foldl (fun acc e => setAddAll acc e.2.tags) s ↔
      a ∈ s ∨ ∃ e ∈ db, a ∈ e.2.tags := by
  induction db generalizing s with
  | nil => simp
  | cons e rest ih =>
    rw [List.foldl_cons, ih]
    rw [mem_setAddAll_iff]
    simp only [List.mem_cons]
    constructor
    · rintro ((hs | he) | ⟨x, hx, hax⟩)
      · exact Or.inl hs
      · exact Or.inr ⟨e, Or.inl rfl, he⟩
      · exact Or.inr ⟨x, Or.inr hx, hax⟩
    · rintro (hs | ⟨x, (rfl | hx), hax⟩)
      · exact Or.inl (Or.inl hs)
      · exact Or.inl (Or.inr hax)
      · exact Or.inr ⟨x, hx, hax⟩

theorem foldl_setAddAll_nodup (db : DB) (s : List String) (hs : s.Nodup) :
    (db.foldl (fun acc e => setAddAll acc e.2.tags) s).Nodup := by
  induction db generalizing s with
  | nil => simpa
  | cons e rest ih => exact ih _ (setAddAll_nodup _ _ hs)

theorem addTags_tracked (resolve : String → String) (fsExists : String → Bool)
    (now dbPath : String) (db : DB) (f : String) (tags : List String)
    (hex : fsExists (resolve f) = true) (r : TagRecord)
    (hr : dbFind db (resolve f) = some r) :
    FileTag.addTags resolve fsExists now dbPath db f tags =
      (Except.ok (setAddAll (setOfList r.tags) tags),
       dbSet db (resolve f) ⟨setAddAll (setOfList r.tags) tags, r.created, now⟩,
       FileTag.save dbPath
         (dbSet db (resolve f) ⟨setAddAll (setOfList r.tags) tags, r.created, now⟩)) := by
  simp [FileTag.addTags, hex, hr]

theorem addTags_untracked (resolve : String → String) (fsExists : String → Bool)
    (now dbPath : String) (db : DB) (f : String) (tags : List String)
    (hex : fsExists (resolve f) = true)
    (hr : dbFind db (resolve f) = none) :
    FileTag.addTags resolve fsExists now dbPath db f tags =
      (Except.ok (setAddAll [] tags),
       dbSet db (resolve f) ⟨setAddAll [] tags, now, now⟩,
       FileTag.save dbPath (dbSet db (resolve f) ⟨setAddAll [] tags, now, now⟩)) := by
  simp [FileTag.addTags, hex, hr, setOfList, setAddAll]

/-- C1 counterexample: already on the empty store, the trace of `save` is a
single direct write to the backing path itself — not a write to a distinct
temporary path followed by a rename over the backing path. -/
theorem save_not_atomic_counterexample :
    ¬ atomicSaveTrace ".filetag.json" (serializeDB [])
        (FileTag.save ".filetag.json" []) := by
  rintro ⟨tmpPath, hne, heq⟩
  simp [FileTag.save] at heq

/-- C1 (amended): `save` persists the store by issuing exactly one
filesystem operation, a direct write of the full serialized content to the
backing-file path itself; no temporary file is written and no rename is
issued, so the atomic-replace durability contract does not hold. -/
theorem save_direct_write (dbPath : String) (db : DB) :
    FileTag.save dbPath db = [FsOp.write dbPath (serializeDB db)] ∧
    ∀ src dst, FsOp.rename src dst ∉ FileTag.save dbPath db := by
  refine ⟨rfl, ?_⟩
  intro src dst hmem
  simp [FileTag.save] at hmem

theorem save_direct_write_witness :
    FileTag.save ".filetag.json" [] = [FsOp.write ".filetag.json" (serializeDB [])] ∧
    FsOp.rename ".filetag.json.tmp" ".filetag.json" ∉ FileTag.save ".filetag.json" [] :=
  ⟨(save_direct_write ".filetag.json" []).1,
   (save_direct_write ".filetag.json" []).2 ".filetag.json.tmp" ".filetag.json"⟩

/-- C3 counterexample: with an existing but unparsable backing file, `init`
does not fail with `StoreCorruptError`. -/
theorem init_corrupt_counterexample :
    FileTag.init ".filetag.json" ReadOutcome.corrupt ≠
      Except.error InitError.storeCorrupt :=
  fun h => Except.noConfusion h

/-- C3 (amended): on a backing file that exists but holds invalid JSON,
`init` raises nothing: the catch-all silently reinitializes the store to
empty and immediately persists it — exactly the same behavior as for a
missing backing file (the corrupt file is overwritten). -/
theorem init_corrupt_reinitializes (dbPath : String) :
    FileTag.init dbPath ReadOutcome.corrupt = Except.ok ([], FileTag.save dbPath []) ∧
    FileTag.init dbPath ReadOutcome.corrupt = FileTag.init dbPath ReadOutcome.missing :=
  ⟨rfl, rfl⟩

/-- C4: if the resolved path names no existing filesystem entry, `addTags`
returns the file-not-found error for that resolved path, leaves the store
untouched and issues no filesystem write at all (so the backing file is
byte-identical to before the call). -/
theorem addTags_missing_file (resolve : String → String) (fsExists : String → Bool)
    (now dbPath : String) (db : DB) (f : String) (tags : List String)
    (h : fsExists (resolve f) = false) :
    FileTag.addTags resolve fsExists now dbPath db f tags =
      (Except.error (TagError.fileNotFound (resolve f)), db, []) := by
  simp [FileTag.addTags, h]

theorem addTags_missing_file_witness :
    FileTag.addTags (fun s => s) (fun _ => false) "t" ".filetag.json" []
        "/missing.txt" ["tag1"] =
      (Except.error (TagError.fileNotFound "/missing.txt"), [], []) :=
  addTags_missing_file (fun s => s) (fun _ => false) "t" ".filetag.json" []
    "/missing.txt" ["tag1"] rfl

/-- C5: on the empty query list, AND-mode returns every tracked path (in
store order) and OR-mode returns no path at all. -/
theorem findByTags_empty_query (db : DB) :
    FileTag.findByTags db [] true = db.map Prod.fst ∧
    FileTag.findByTags db [] false = [] := by
  constructor
  · simp [FileTag.findByTags]
  · simp [FileTag.findByTags]

/-- C10: `removeTags` on a path whose resolved form is untracked returns
the empty list, leaves the store unchanged and issues no write: `save` is
never reached. -/
theorem removeTags_untracked (resolve : String → String) (now dbPath : String)
    (db : DB) (f : String) (tags : List String)
    (h : dbFind db (resolve f) = none) :
    FileTag.removeTags resolve now dbPath db f tags = ([], db, []) := by
  simp [FileTag.removeTags, h]

theorem removeTags_untracked_witness :
    FileTag.removeTags (fun s => s) "t" ".filetag.json"
        [("/a", ⟨["tag1"], "c", "m"⟩)] "/b" ["tag1"] =
      ([], [("/a", ⟨["tag1"], "c", "m"⟩)], []) :=
  removeTags_untracked (fun s => s) "t" ".filetag.json"
    [("/a", ⟨["tag1"], "c", "m"⟩)] "/b" ["tag1"] rfl

/-- C2 counterexample: tags are not normalized — after
`addTags(f, [" Work "])` on an existing file, `getTags(f)` returns the
verbatim string `" Work "`, not `["work"]`. -/
theorem addTags_no_normalization_counterexample :
    FileTag.getTags (fun s => s)
        (FileTag.addTags (fun s => s) (fun _ => true) "t" ".filetag.json" [] "/f"
          [" Work "]).2.1 "/f" ≠ ["work"] := by
  decide

/-- C2 (amended): `addTags` stores every supplied tag verbatim — no
whitespace trimming, no lowercasing (so `addTags(f, [" Work "])` followed
by `getTags(f)` returns `[" Work "]`). What does hold is exact-value
deduplication: the resulting stored list never contains two identical
values, and `getTags` returns exactly the list `addTags` returned. -/
theorem addTags_verbatim (resolve : String → String) (fsExists : String → Bool)
    (now dbPath : String) (db : DB) (f : String) (tags ret : List String)
    (db2 : DB) (tr : List FsOp)
    (h : FileTag.addTags resolve fsExists now dbPath db f tags =
      (Except.ok ret, db2, tr)) :
    ret.Nodup ∧ FileTag.getTags resolve db2 f = ret := by
  have hex : fsExists (resolve f) = true := by
    by_contra hne
    rw [Bool.not_eq_true] at hne
    simp [FileTag.addTags, hne] at h
  cases hfind : dbFind db (resolve f) with
  | some r =>
    rw [addTags_tracked resolve fsExists now dbPath db f tags hex r hfind,
      Prod.mk.injEq, Prod.mk.injEq, Except.ok.injEq] at h
    obtain ⟨h1, h2, h3⟩ := h
    subst h1
    subst h2
    refine ⟨setAddAll_nodup _ _ (setOfList_nodup _), ?_⟩
    simp [FileTag.getTags, dbFind_dbSet_self]
  | none =>
    rw [addTags_untracked resolve fsExists now dbPath db f tags hex hfind,
      Prod.mk.injEq, Prod.mk.injEq, Except.ok.injEq] at h
    obtain ⟨h1, h2, h3⟩ := h
    subst h1
    subst h2
    refine ⟨setAddAll_nodup _ _ List.nodup_nil, ?_⟩
    simp [FileTag.getTags, dbFind_dbSet_self]

theorem addTags_verbatim_witness :
    ([" Work "] : List String).Nodup ∧
    FileTag.getTags (fun s => s)
        [("/f", ⟨[" Work "], "t", "t"⟩)] "/f" = [" Work "] :=
  addTags_verbatim (fun s => s) (fun _ => true) "t" ".filetag.json" [] "/f"
    [" Work "] [" Work "] [("/f", ⟨[" Work "], "t", "t"⟩)]
    (FileTag.save ".filetag.json" [("/f", ⟨[" Work "], "t", "t"⟩)]) rfl

/-- C8: when removal empties a tracked record's tag set, the record stays
in the store: the returned list is empty and the record is still present
with an empty tag list, its `modified` timestamp set to the call's time
and its `created` timestamp unchanged. -/
theorem removeTags_emptied_keeps_record (resolve : String → String)
    (now dbPath : String) (db : DB) (f : String) (tags : List String)
    (r : TagRecord) (hr : dbFind db (resolve f) = some r)
    (hall : ∀ x ∈ r.tags, x ∈ tags) :
    (FileTag.removeTags resolve now dbPath db f tags).1 = [] ∧
    dbFind (FileTag.removeTags resolve now dbPath db f tags).2.1 (resolve f) =
      some ⟨[], r.created, now⟩ := by
  have hfilter : r.tags.filter (fun t => decide (t ∉ tags)) = [] := by
    rw [List.filter_eq_nil_iff]
    intro a ha
    simp [hall a ha]
  simp only [FileTag.removeTags, hr, hfilter]
  exact ⟨trivial, dbFind_dbSet_self _ _ _⟩

theorem removeTags_emptied_keeps_record_witness :
    (FileTag.removeTags (fun s => s) "t" ".filetag.json"
        [("/a", ⟨["x", "y"], "c", "m"⟩)] "/a" ["y", "x"]).1 = [] ∧
    dbFind (FileTag.removeTags (fun s => s) "t" ".filetag.json"
        [("/a", ⟨["x", "y"], "c", "m"⟩)] "/a" ["y", "x"]).2.1 "/a" =
      some ⟨[], "c", "t"⟩ :=
  removeTags_emptied_keeps_record (fun s => s) "t" ".filetag.json"
    [("/a", ⟨["x", "y"], "c", "m"⟩)] "/a" ["y", "x"] ⟨["x", "y"], "c", "m"⟩
    rfl (by decide)

theorem mem_filter_map_fst (db : DB) (pred : String × TagRecord → Bool) (p : String)
    (hnd : (db.map Prod.fst).Nodup) :
    p ∈ (db.filter pred).map Prod.fst ↔
      ∃ r, dbFind db p = some r ∧ pred (p, r) = true := by
  constructor
  · intro hp
    obtain ⟨e, he, hfst⟩ := List.mem_map.mp hp
    obtain ⟨hmem, hpred⟩ := List.mem_filter.mp he
    refine ⟨e.2, ?_, ?_⟩
    · rw [dbFind_eq_some_iff db p e.2 hnd, ← hfst]
      simpa using hmem
    · rw [← hfst]
      simpa using hpred
  · rintro ⟨r, hfind, hpred⟩
    have hmem : (p, r) ∈ db := (dbFind_eq_some_iff db p r hnd).mp hfind
    exact List.mem_map.mpr ⟨(p, r), List.mem_filter.mpr ⟨hmem, hpred⟩, rfl⟩

/-- C6: on a store with unique keys, OR-mode (`matchAll = false`) returns
exactly the tracked paths whose record's tag set meets the query list
(non-empty intersection), and AND-mode (`matchAll = true`) exactly those
whose record's tag set contains every query tag (superset). -/
theorem findByTags_or_and (db : DB) (tags : List String) (p : String)
    (hnd : (db.map Prod.fst).Nodup) :
    (p ∈ FileTag.findByTags db tags false ↔
      ∃ r, dbFind db p = some r ∧ ∃ t ∈ tags, t ∈ r.tags) ∧
    (p ∈ FileTag.findByTags db tags true ↔
      ∃ r, dbFind db p = some r ∧ ∀ t ∈ tags, t ∈ r.tags) := by
  constructor
  · rw [FileTag.findByTags, mem_filter_map_fst db _ p hnd]
    simp
  · rw [FileTag.findByTags, mem_filter_map_fst db _ p hnd]
    simp

theorem findByTags_or_and_witness :
    (("/a" ∈ FileTag.findByTags [("/a", ⟨["x"], "c", "m"⟩)] ["x"] false) ↔
      ∃ r, dbFind [("/a", ⟨["x"], "c", "m"⟩)] "/a" = some r ∧
        ∃ t ∈ ["x"], t ∈ r.tags) ∧
    (("/a" ∈ FileTag.findByTags [("/a", ⟨["x"], "c", "m"⟩)] ["x"] true) ↔
      ∃ r, dbFind [("/a", ⟨["x"], "c", "m"⟩)] "/a" = some r ∧
        ∀ t ∈ ["x"], t ∈ r.tags) :=
  findByTags_or_and [("/a", ⟨["x"], "c", "m"⟩)] ["x"] "/a" (by decide)

/-- C7: `addTags` is idempotent on tag content — with the target file
existing, adding `[t]` twice in a row returns the same resulting tag list
as the single first call, whatever the two call timestamps are. -/
theorem addTags_idempotent (resolve : String → String) (fsExists : String → Bool)
    (now now2 dbPath : String) (db : DB) (f t : String)
    (hex : fsExists (resolve f) = true) :
    (FileTag.addTags resolve fsExists now2 dbPath
        (FileTag.addTags resolve fsExists now dbPath db f [t]).2.1 f [t]).1 =
      (FileTag.addTags resolve fsExists now dbPath db f [t]).1 := by
  cases hfind : dbFind db (resolve f) with
  | some r =>
    rw [addTags_tracked resolve fsExists now dbPath db f [t] hex r hfind]
    dsimp only
    rw [addTags_tracked resolve fsExists now2 dbPath _ f [t] hex _
      (dbFind_dbSet_self _ _ _)]
    dsimp only
    have hnd : (setAddAll (setOfList r.tags) [t]).Nodup :=
      setAddAll_nodup _ _ (setOfList_nodup _)
    have hmem : t ∈ setAddAll (setOfList r.tags) [t] :=
      (mem_setAddAll_iff t [t] (setOfList r.tags)).mpr
        (Or.inr (List.mem_singleton.mpr rfl))
    rw [setOfList_eq_self _ hnd, setAddAll_singleton_of_mem _ t hmem]
  | none =>
    rw [addTags_untracked resolve fsExists now dbPath db f [t] hex hfind]
    dsimp only
    rw [addTags_tracked resolve fsExists now2 dbPath _ f [t] hex _
      (dbFind_dbSet_self _ _ _)]
    dsimp only
    have hnd : (setAddAll [] [t]).Nodup :=
      setAddAll_nodup _ _ List.nodup_nil
    have hmem : t ∈ setAddAll ([] : List String) [t] :=
      (mem_setAddAll_iff t [t] []).mpr (Or.inr (List.mem_singleton.mpr rfl))
    rw [setOfList_eq_self _ hnd, setAddAll_singleton_of_mem _ t hmem]

theorem addTags_idempotent_witness :
    (FileTag.addTags (fun s => s) (fun _ => true) "t2" ".filetag.json"
        (FileTag.addTags (fun s => s) (fun _ => true) "t1" ".filetag.json" []
          "/f" ["tag1"]).2.1 "/f" ["tag1"]).1 =
      (FileTag.addTags (fun s => s) (fun _ => true) "t1" ".filetag.json" []
        "/f" ["tag1"]).1 :=
  addTags_idempotent (fun s => s) (fun _ => true) "t1" "t2" ".filetag.json" []
    "/f" "tag1" rfl

/-- C9: `listAllTags` returns a list that is ascending (sorted with
respect to the lexicographic order on strings), duplicate-free, and whose
members are exactly the tags occurring in some record of the store — so
the output is independent of the order in which tags were inserted. -/
theorem listAllTags_sorted_dedup_union (db : DB) :
    List.Sorted (fun a b : String => a ≤ b) (FileTag.listAllTags db) ∧
    (FileTag.listAllTags db).Nodup ∧
    ∀ t, t ∈ FileTag.listAllTags db ↔ ∃ e ∈ db, t ∈ e.2.tags := by
  refine ⟨?_, ?_, ?_⟩
  · exact List.sorted_insertionSort (fun a b : String => a ≤ b)
      (db.foldl (fun acc e => setAddAll acc e.2.tags) [])
  · exact (List.perm_insertionSort _ _).nodup_iff.mpr
      (foldl_setAddAll_nodup db [] List.nodup_nil)
  · intro t
    have hmem := ((List.perm_insertionSort (fun a b : String => a ≤ b)
        (db.foldl (fun acc e => setAddAll acc e.2.tags) [])).mem_iff
          (a := t)).trans (mem_foldl_setAddAll db t [])
    constructor
    · intro ht
      rcases hmem.mp ht with h0 | h1
      · exact absurd h0 (List.not_mem_nil t)
      · exact h1
    · intro he
      exact hmem.mpr (Or.inr he)
